import Mathlib

/-!
Verification development for the TESSRYX dependency-graph kernel.

The Python sources are shallowly embedded here:
* `src/tessryx/kernel/graph_ops.py` — `DependencyGraph`, SCC detection,
  `topological_sort`, path queries, transitive closures;
* `src/tessryx/kernel/impact_analyzer.py` — `calculate_impact_metrics`,
  `find_critical_path`, `_calculate_max_depth`;
* `src/tessryx/kernel/solver/base.py` and `or_tools_adapter.py` — the
  `Solution` contract and the CP-SAT adapter's `solve`, `_encode_constraints`
  and `validate_solution`.

Entity IDs (UUIDs in the source) are represented by `Nat`.  Graph nodes are
represented by their IDs: every kernel algorithm in the source consults an
entity object only through its `.id` field.  Python exceptions are modelled
by an explicit error type and `Except`; wall-clock fields and free-form
metadata dictionaries carry no algorithmic content and are omitted from the
embedded records.
-/

namespace Tessryx

/-- The NetworkX exception classes relevant to `graph_ops.py`.
In NetworkX, `NetworkXError` and `NetworkXAlgorithmError` are distinct,
sibling subclasses of `NetworkXException`, and `NetworkXUnfeasible` derives
from `NetworkXAlgorithmError` — so a Python `except nx.NetworkXError` clause
does **not** catch `NetworkXUnfeasible`.  `nx.topological_sort` raises
`NetworkXUnfeasible` when the digraph contains a cycle. -/
inductive NxExc where
  | networkXError (msg : String)
  | unfeasible (msg : String)
  deriving Repr, DecidableEq

/-- Python `except nx.NetworkXError` catches exactly instances of the
`NetworkXError` class (no relevant subclass exists among the exceptions
raised here); `NetworkXUnfeasible` is not one of them. -/
def NxExc.isNetworkXError : NxExc → Bool
  | .networkXError _ => true
  | .unfeasible _ => false

/-- The Python exceptions surfaced by the embedded kernel code. -/
inductive PyErr where
  | valueError (msg : String)
  | keyError (key : String)
  | indexError
  | nx (e : NxExc)
  | cycleDetected (cycle : List Nat)
  deriving Repr, DecidableEq

/-- `str(e)` for the exception, as interpolated into solver diagnostics. -/
def PyErr.msg : PyErr → String
  | .valueError m => m
  | .keyError k => "KeyError: " ++ k
  | .indexError => "list index out of range"
  | .nx (.networkXError m) => m
  | .nx (.unfeasible m) => m
  | .cycleDetected _ => "Cycle detected"

instance {ε α : Type} [DecidableEq ε] [DecidableEq α] : DecidableEq (Except ε α)
  | .ok a, .ok b => decidable_of_iff (a = b) (by simp)
  | .ok _, .error _ => isFalse (fun h => Except.noConfusion h)
  | .error _, .ok _ => isFalse (fun h => Except.noConfusion h)
  | .error a, .error b => decidable_of_iff (a = b) (by simp)

/-- `DependencyGraph` (graph_ops.py): a NetworkX `DiGraph` whose nodes are
entity IDs and whose edges are `(from_entity, to_entity)` pairs, both kept
in insertion order.  An edge `(a, b)` means "a depends on b". -/
structure Graph where
  nodes : List Nat
  edges : List (Nat × Nat)
  deriving Repr, DecidableEq

/-- `DiGraph.successors`: targets of outgoing edges, in insertion order. -/
def successors (g : Graph) (n : Nat) : List Nat :=
  (g.edges.filter (fun e => e.1 = n)).map (fun e => e.2)

/-- `DiGraph.predecessors`: sources of incoming edges, in insertion order. -/
def predecessors (g : Graph) (n : Nat) : List Nat :=
  (g.edges.filter (fun e => e.2 = n)).map (fun e => e.1)

/-- `DependencyGraph.get_dependencies` (IDs of the returned entities):
empty for an unknown ID, otherwise the direct successors. -/
def get_dependencies (g : Graph) (n : Nat) : List Nat :=
  if n ∈ g.nodes then successors g n else []

/-- `DependencyGraph.get_dependents` (IDs of the returned entities). -/
def get_dependents (g : Graph) (n : Nat) : List Nat :=
  if n ∈ g.nodes then predecessors g n else []

/-- The structural invariants `DependencyGraph.add_entity` / `add_relation`
and the `Relation` model enforce: distinct node IDs, at most one edge per
ordered pair, edge endpoints present, and no self-loops (a `Relation`
raises `ValueError` on `from_entity == to_entity`). -/
def Graph.WF (g : Graph) : Prop :=
  g.nodes.Nodup ∧ g.edges.Nodup ∧
    ∀ e ∈ g.edges, e.1 ∈ g.nodes ∧ e.2 ∈ g.nodes ∧ e.1 ≠ e.2

instance (g : Graph) : Decidable g.WF := by
  unfold Graph.WF; infer_instance

/-- `DependencyGraph.add_entity`: `ValueError` on a duplicate ID, otherwise
a new graph with the node appended. -/
def add_entity (g : Graph) (id : Nat) : Except PyErr Graph :=
  if id ∈ g.nodes then
    .error (.valueError ("Entity " ++ toString id ++ " already exists in graph"))
  else
    .ok ⟨g.nodes ++ [id], g.edges⟩

/-- `DependencyGraph.add_relation`: `ValueError` when an endpoint is absent
or the ordered pair already has an edge. -/
def add_relation (g : Graph) (e : Nat × Nat) : Except PyErr Graph :=
  if e.1 ∉ g.nodes then
    .error (.valueError ("Source entity " ++ toString e.1 ++ " not in graph"))
  else if e.2 ∉ g.nodes then
    .error (.valueError ("Target entity " ++ toString e.2 ++ " not in graph"))
  else if e ∈ g.edges then
    .error (.valueError "Relation already exists")
  else
    .ok ⟨g.nodes, g.edges ++ [e]⟩

/-- The BFS worklist loop shared by `get_transitive_dependencies` and
`get_transitive_dependents` (graph_ops.py lines 505–529 and 558–582):
pop `(current, depth)`; skip if visited; otherwise record it and, unless
`max_depth` is reached, enqueue the unvisited direct neighbours at
`depth + 1`.  `fuel` bounds the number of loop iterations; the Python
`while queue` loop performs at most one iteration per enqueued item. -/
def transBfs (adj : Nat → List Nat) (maxDepth : Option Nat) :
    Nat → List (Nat × Nat) → List Nat → List Nat
  | 0, _, visited => visited
  | _ + 1, [], visited => visited
  | fuel + 1, (cur, depth) :: queue, visited =>
    if cur ∈ visited then
      transBfs adj maxDepth fuel queue visited
    else
      let visited' := visited ++ [cur]
      match maxDepth with
      | some md =>
        if md ≤ depth then
          transBfs adj maxDepth fuel queue visited'
        else
          transBfs adj maxDepth fuel
            (queue ++ ((adj cur).filter (fun d => d ∉ visited')).map (fun d => (d, depth + 1)))
            visited'
      | none =>
        transBfs adj maxDepth fuel
          (queue ++ ((adj cur).filter (fun d => d ∉ visited')).map (fun d => (d, depth + 1)))
          visited'

/-- Iteration budget for the BFS: one initial item plus at most one enqueue
per edge. -/
def bfsFuel (g : Graph) : Nat :=
  g.nodes.length + g.edges.length + 1

/-- `get_transitive_dependencies` (graph_ops.py): BFS over successors,
excluding the origin (`visited.discard(entity_id)`); empty for unknown IDs. -/
def get_transitive_dependencies (g : Graph) (id : Nat) (maxDepth : Option Nat) :
    List Nat :=
  if id ∉ g.nodes then []
  else (transBfs (get_dependencies g) maxDepth (bfsFuel g) [(id, 0)] []).erase id

/-- `get_transitive_dependents` (graph_ops.py): BFS over predecessors,
excluding the origin; empty for unknown IDs. -/
def get_transitive_dependents (g : Graph) (id : Nat) (maxDepth : Option Nat) :
    List Nat :=
  if id ∉ g.nodes then []
  else (transBfs (get_dependents g) maxDepth (bfsFuel g) [(id, 0)] []).erase id

/-- One deduplicating step of the visited list. -/
def dedupStep (v : List Nat) (c : Nat) : List Nat :=
  if c ∈ v then v else v ++ [c]

theorem successors_nodup (g : Graph) (hwf : g.WF) (n : Nat) :
    (successors g n).Nodup := by
  unfold successors
  refine List.Nodup.map_on ?_ (hwf.2.1.filter _)
  intro x hx y hy hxy
  have hx1 : x.1 = n := by simpa using (List.mem_filter.mp hx).2
  have hy1 : y.1 = n := by simpa using (List.mem_filter.mp hy).2
  exact Prod.ext (hx1.trans hy1.symm) hxy

theorem predecessors_nodup (g : Graph) (hwf : g.WF) (n : Nat) :
    (predecessors g n).Nodup := by
  unfold predecessors
  refine List.Nodup.map_on ?_ (hwf.2.1.filter _)
  intro x hx y hy hxy
  have hx2 : x.2 = n := by simpa using (List.mem_filter.mp hx).2
  have hy2 : y.2 = n := by simpa using (List.mem_filter.mp hy).2
  exact Prod.ext hxy (hx2.trans hy2.symm)

theorem mem_successors (g : Graph) (n m : Nat) :
    m ∈ successors g n ↔ (n, m) ∈ g.edges := by
  unfold successors
  simp only [List.mem_map, List.mem_filter, decide_eq_true_eq]
  constructor
  · rintro ⟨e, ⟨he, h1⟩, h2⟩
    have : (n, m) = e := by cases e; simp_all
    exact this ▸ he
  · intro h
    exact ⟨(n, m), ⟨h, rfl⟩, rfl⟩

theorem mem_predecessors (g : Graph) (n m : Nat) :
    m ∈ predecessors g n ↔ (m, n) ∈ g.edges := by
  unfold predecessors
  simp only [List.mem_map, List.mem_filter, decide_eq_true_eq]
  constructor
  · rintro ⟨e, ⟨he, h2⟩, h1⟩
    have : (m, n) = e := by cases e; simp_all
    exact this ▸ he
  · intro h
    exact ⟨(m, n), ⟨h, rfl⟩, rfl⟩

theorem transBfs_nodup (adj : Nat → List Nat) (md : Option Nat) :
    ∀ (fuel : Nat) (queue : List (Nat × Nat)) (visited : List Nat),
      visited.Nodup → (transBfs adj md fuel queue visited).Nodup := by
  intro fuel
  induction fuel with
  | zero => intro queue visited h; simpa [transBfs] using h
  | succ f ih =>
    intro queue visited h
    match queue with
    | [] => simpa [transBfs] using h
    | (cur, depth) :: q =>
      by_cases hc : cur ∈ visited
      · simpa [transBfs, hc] using ih q visited h
      · have hnodup : (visited ++ [cur]).Nodup := by
          rw [List.nodup_append]
          refine ⟨h, List.nodup_singleton _, ?_⟩
          intro a ha hmem
          rw [List.mem_singleton] at hmem
          exact hc (hmem ▸ ha)
        simp only [transBfs, hc, if_false]
        cases md with
        | none => exact ih _ _ hnodup
        | some m =>
          by_cases hm : m ≤ depth
          · simpa [hm] using ih _ _ hnodup
          · simpa [hm] using ih _ _ hnodup

theorem transBfs_flush (adj : Nat → List Nat) (md : Nat) :
    ∀ (queue : List (Nat × Nat)) (fuel : Nat) (visited : List Nat),
      (∀ q ∈ queue, md ≤ q.2) → queue.length < fuel →
      transBfs adj (some md) fuel queue visited =
        (queue.map Prod.fst).foldl dedupStep visited := by
  intro queue
  induction queue with
  | nil =>
    intro fuel visited _ hf
    match fuel, hf with
    | f + 1, _ => simp [transBfs]
  | cons qh qt ih =>
    intro fuel visited hq hf
    match fuel, hf with
    | f + 1, hf =>
      have hfq : qt.length < f := by simpa using hf
      obtain ⟨cur, depth⟩ := qh
      have hd : md ≤ depth := hq (cur, depth) (List.mem_cons_self _ _)
      have hq' : ∀ q ∈ qt, md ≤ q.2 := fun q hq2 => hq q (List.mem_cons_of_mem _ hq2)
      by_cases hc : cur ∈ visited
      · have step : dedupStep visited cur = visited := by simp [dedupStep, hc]
        rw [List.map_cons, List.foldl_cons, step]
        simpa [transBfs, hc] using ih f visited hq' hfq
      · have step : dedupStep visited cur = visited ++ [cur] := by simp [dedupStep, hc]
        rw [List.map_cons, List.foldl_cons, step]
        simpa [transBfs, hc, hd] using ih f (visited ++ [cur]) hq' hfq

theorem foldl_dedupStep_fresh :
    ∀ (l : List Nat) (v : List Nat), l.Nodup → (∀ x ∈ l, x ∉ v) →
      l.foldl dedupStep v = v ++ l := by
  intro l
  induction l with
  | nil => intro v _ _; simp
  | cons a t ih =>
    intro v hnd hfresh
    have ha : a ∉ v := hfresh a (List.mem_cons_self _ _)
    have step : dedupStep v a = v ++ [a] := by simp [dedupStep, ha]
    have hnd' : t.Nodup := hnd.of_cons
    have hfresh' : ∀ x ∈ t, x ∉ v ++ [a] := by
      intro x hx
      simp only [List.mem_append, List.mem_singleton]
      rintro (hv | hxa)
      · exact hfresh x (List.mem_cons_of_mem _ hx) hv
      · exact (List.nodup_cons.mp hnd).1 (hxa ▸ hx)
    calc (a :: t).foldl dedupStep v = t.foldl dedupStep (v ++ [a]) := by
          rw [List.foldl_cons, step]
      _ = (v ++ [a]) ++ t := ih (v ++ [a]) hnd' hfresh'
      _ = v ++ a :: t := by simp

theorem transBfs_depth_one (adj : Nat → List Nat) (id : Nat) (fuel : Nat)
    (hnd : (adj id).Nodup) (hself : id ∉ adj id) (hf : (adj id).length < fuel) :
    (transBfs adj (some 1) (fuel + 1) [(id, 0)] []).erase id = adj id := by
  have hfilter : (adj id).filter (fun d => !decide (d = id)) = adj id := by
    rw [List.filter_eq_self]
    intro a ha
    simp only [Bool.not_eq_true', decide_eq_false_iff_not]
    intro hai
    exact hself (hai ▸ ha)
  have hfirst : transBfs adj (some 1) (fuel + 1) [(id, 0)] [] =
      transBfs adj (some 1) fuel
        ((adj id).map (fun d => (d, 1))) [id] := by
    simp only [transBfs, List.not_mem_nil, if_false]
    norm_num
    rw [hfilter]
  rw [hfirst]
  have hall : ∀ q ∈ (adj id).map (fun d => (d, (1 : Nat))), 1 ≤ q.2 := by
    intro q hq
    obtain ⟨d, _, rfl⟩ := List.mem_map.mp hq
    exact le_refl 1
  have hlen : ((adj id).map (fun d => (d, (1 : Nat)))).length < fuel := by
    simpa using hf
  rw [transBfs_flush adj 1 _ fuel [id] hall hlen]
  have hmap : ((adj id).map (fun d => (d, (1 : Nat)))).map Prod.fst = adj id := by
    rw [List.map_map]
    exact List.map_id'' (fun a => rfl) _
  rw [hmap]
  have hfresh : ∀ x ∈ adj id, x ∉ ([id] : List Nat) := by
    intro x hx
    rw [List.mem_singleton]
    intro hxi
    exact hself (hxi ▸ hx)
  rw [foldl_dedupStep_fresh (adj id) [id] hnd hfresh]
  simp [List.erase_cons_head]

theorem transBfs_origin_not_mem (adj : Nat → List Nat) (md : Option Nat)
    (fuel : Nat) (queue : List (Nat × Nat)) (id : Nat) :
    id ∉ (transBfs adj md fuel queue []).erase id :=
  (transBfs_nodup adj md fuel queue [] (List.nodup_nil)).not_mem_erase

/-- C8: with `max_depth = 1` the transitive closure is exactly the direct
neighbourhood, and for every depth bound the origin itself is excluded;
in both traversal directions. -/
theorem C8_depth_one_and_origin (g : Graph) (id : Nat)
    (hwf : g.WF) (hid : id ∈ g.nodes) :
    (∀ x, x ∈ get_transitive_dependencies g id (some 1) ↔ x ∈ get_dependencies g id) ∧
    (∀ md x, x ∈ get_transitive_dependencies g id md → x ≠ id) ∧
    (∀ x, x ∈ get_transitive_dependents g id (some 1) ↔ x ∈ get_dependents g id) ∧
    (∀ md x, x ∈ get_transitive_dependents g id md → x ≠ id) := by
  have hfuel : ∃ f, bfsFuel g = f + 1 ∧ g.edges.length < f := by
    refine ⟨g.nodes.length + g.edges.length, rfl, ?_⟩
    have : 1 ≤ g.nodes.length := List.length_pos.mpr (List.ne_nil_of_mem hid)
    omega
  obtain ⟨f, hfe, hflt⟩ := hfuel
  have hdeps : get_dependencies g id = successors g id := by
    simp [get_dependencies, hid]
  have hdepnts : get_dependents g id = predecessors g id := by
    simp [get_dependents, hid]
  have hsucc_self : id ∉ get_dependencies g id := by
    rw [hdeps]
    intro hmem
    exact (hwf.2.2 _ ((mem_successors g id id).mp hmem)).2.2 rfl
  have hpred_self : id ∉ get_dependents g id := by
    rw [hdepnts]
    intro hmem
    exact (hwf.2.2 _ ((mem_predecessors g id id).mp hmem)).2.2 rfl
  have hsucc_len : (get_dependencies g id).length < f := by
    rw [hdeps]
    calc (successors g id).length ≤ g.edges.length := by
          simpa [successors] using List.length_filter_le _ g.edges
      _ < f := hflt
  have hpred_len : (get_dependents g id).length < f := by
    rw [hdepnts]
    calc (predecessors g id).length ≤ g.edges.length := by
          simpa [predecessors] using List.length_filter_le _ g.edges
      _ < f := hflt
  have hsucc_nd : (get_dependencies g id).Nodup := hdeps ▸ successors_nodup g hwf id
  have hpred_nd : (get_dependents g id).Nodup := hdepnts ▸ predecessors_nodup g hwf id
  have hnotnot : ¬ id ∉ g.nodes := fun h => h hid
  refine ⟨?_, ?_, ?_, ?_⟩
  · intro x
    unfold get_transitive_dependencies
    rw [if_neg hnotnot, hfe, transBfs_depth_one _ id f hsucc_nd hsucc_self hsucc_len]
  · intro md x hx
    unfold get_transitive_dependencies at hx
    rw [if_neg hnotnot] at hx
    intro hxid
    exact transBfs_origin_not_mem (get_dependencies g) md (bfsFuel g) [(id, 0)] id (hxid ▸ hx)
  · intro x
    unfold get_transitive_dependents
    rw [if_neg hnotnot, hfe, transBfs_depth_one _ id f hpred_nd hpred_self hpred_len]
  · intro md x hx
    unfold get_transitive_dependents at hx
    rw [if_neg hnotnot] at hx
    intro hxid
    exact transBfs_origin_not_mem (get_dependents g) md (bfsFuel g) [(id, 0)] id (hxid ▸ hx)

/-- Witness for C8 on the chain 0 → 1 → 2. -/
theorem C8_depth_one_and_origin_witness :
    (Graph.mk [0, 1, 2] [(0, 1), (1, 2)]).WF ∧
    (1 ∈ get_transitive_dependencies (Graph.mk [0, 1, 2] [(0, 1), (1, 2)]) 0 (some 1) ↔
      1 ∈ get_dependencies (Graph.mk [0, 1, 2] [(0, 1), (1, 2)]) 0) :=
  ⟨by decide,
   (C8_depth_one_and_origin (Graph.mk [0, 1, 2] [(0, 1), (1, 2)]) 0
      (by decide) (by decide)).1 1⟩

/-- Boolean reachability used to model `nx` reachability semantics:
`v` is reachable from `u` iff `u = v` or `v` lies in the successor
closure of `u` (computed by `get_transitive_dependencies`). -/
def reachesB (g : Graph) (u v : Nat) : Bool :=
  u == v || (get_transitive_dependencies g u none).contains v

/-- Modelled semantics of `nx.strongly_connected_components` for
`find_strongly_connected_components` (graph_ops.py): the SCC of `v` is the
set of nodes mutually reachable with `v`.  The NetworkX generator yields
each component once; the wrapper converts them to lists and sorts them
largest-first (`result.sort(key=len, reverse=True)`, a stable sort). -/
def sccOf (g : Graph) (v : Nat) : List Nat :=
  g.nodes.filter (fun u => reachesB g v u && reachesB g u v)

/-- `find_strongly_connected_components` (graph_ops.py). -/
def find_strongly_connected_components (g : Graph) : List (List Nat) :=
  let comps := g.nodes.foldl
    (fun acc v => if acc.any (fun c => c.contains v) then acc else acc ++ [sccOf g v]) []
  comps.insertionSort (fun a b => b.length ≤ a.length)

/-- `find_circular_dependencies` (graph_ops.py): SCCs of size > 1. -/
def find_circular_dependencies (g : Graph) : List (List Nat) :=
  (find_strongly_connected_components g).filter (fun scc => 1 < scc.length)

/-- Kahn source selection: a node of the working set with no incoming edge
from the working set. -/
def pickSource (remaining : List Nat) (edges : List (Nat × Nat)) : Option Nat :=
  remaining.find? (fun v => decide (¬ ∃ u ∈ remaining, (u, v) ∈ edges))

/-- Kahn's algorithm, the documented semantics of `nx.topological_sort`:
repeatedly emit a node with in-degree zero among the remaining nodes; if at
some point none exists while nodes remain, the graph has a cycle.  `fuel`
bounds the iteration count (one node is removed per step). -/
def kahnAux : Nat → List Nat → List (Nat × Nat) → Option (List Nat)
  | _, [], _ => some []
  | 0, _ :: _, _ => none
  | fuel + 1, r :: rs, edges =>
    (pickSource (r :: rs) edges).bind fun s =>
      (kahnAux fuel ((r :: rs).erase s) edges).map fun l => s :: l

/-- `nx.topological_sort`: a topological order of the digraph, or
`NetworkXUnfeasible` when the graph contains a cycle. -/
def nxTopologicalSort (g : Graph) : Except NxExc (List Nat) :=
  match kahnAux g.nodes.length g.nodes g.edges with
  | some l => .ok l
  | none => .error (.unfeasible "Graph contains a cycle or graph changed during iteration")

/-- `topological_sort` (graph_ops.py lines 300–341): reverse the NetworkX
order (dependencies first); the `except nx.NetworkXError` clause converts
only `NetworkXError` instances into `CycleDetectedError` — any other
exception (in particular `NetworkXUnfeasible`) propagates to the caller. -/
def topological_sort (g : Graph) : Except PyErr (List Nat) :=
  match nxTopologicalSort g with
  | .ok order => .ok order.reverse
  | .error e =>
    if e.isNetworkXError then
      match find_circular_dependencies g with
      | c :: _ => .error (.cycleDetected c)
      | [] => .error (.cycleDetected [])
    else .error (.nx e)

/-- Whether an `Except` value is a success. -/
def isOk {ε α : Type} : Except ε α → Bool
  | .ok _ => true
  | .error _ => false

/-- The edge relation of the graph: `u` depends on `v`. -/
def edgeRel (g : Graph) (u v : Nat) : Prop := (u, v) ∈ g.edges

instance (g : Graph) (u v : Nat) : Decidable (edgeRel g u v) := by
  unfold edgeRel; infer_instance

/-- The graph contains a directed cycle. -/
def HasCycle (g : Graph) : Prop := ∃ v, Relation.TransGen (edgeRel g) v v

/-- The graph is a DAG. -/
def Acyclic (g : Graph) : Prop := ¬ HasCycle g

/-- `v` is reachable from `u` along edges. -/
def Reaches (g : Graph) (u v : Nat) : Prop := Relation.ReflTransGen (edgeRel g) u v

/-- A nonempty node set in which every node has an in-neighbour inside the
set; such a set witnesses a cycle and keeps Kahn's algorithm stuck. -/
def CycleSet (edges : List (Nat × Nat)) (S : List Nat) : Prop :=
  S ≠ [] ∧ ∀ v ∈ S, ∃ u ∈ S, (u, v) ∈ edges

theorem pickSource_some {R : List Nat} {E : List (Nat × Nat)} {s : Nat}
    (h : pickSource R E = some s) :
    s ∈ R ∧ ¬ ∃ u ∈ R, (u, s) ∈ E := by
  unfold pickSource at h
  have h1 := (List.find?_eq_some.mp h).1
  exact ⟨List.mem_of_find?_eq_some h, of_decide_eq_true h1⟩

theorem pickSource_none {R : List Nat} {E : List (Nat × Nat)}
    (h : pickSource R E = none) :
    ∀ v ∈ R, ∃ u ∈ R, (u, v) ∈ E := by
  unfold pickSource at h
  intro v hv
  have h1 := List.find?_eq_none.mp h v hv
  have h2 : ¬ ¬ ∃ u ∈ R, (u, v) ∈ E := fun hn => h1 (decide_eq_true hn)
  exact not_not.mp h2

theorem kahnAux_perm :
    ∀ (fuel : Nat) (R : List Nat) (E : List (Nat × Nat)) (l : List Nat),
      kahnAux fuel R E = some l → l.Perm R := by
  intro fuel
  induction fuel with
  | zero =>
    intro R E l h
    match R, h with
    | [], h => simp [kahnAux] at h; simp [← h]
  | succ f ih =>
    intro R E l h
    match R with
    | [] => simp [kahnAux] at h; simp [← h]
    | r :: rs =>
      simp only [kahnAux] at h
      match hps : pickSource (r :: rs) E with
      | none => rw [hps] at h; exact absurd h (by simp)
      | some s =>
        simp only [hps, Option.some_bind] at h
        match hrec : kahnAux f ((r :: rs).erase s) E with
        | none => rw [hrec] at h; exact absurd h (by simp)
        | some l' =>
          rw [hrec, Option.map_some'] at h
          obtain rfl : s :: l' = l := by simpa using h
          have hs : s ∈ r :: rs := (pickSource_some hps).1
          exact ((ih _ E l' hrec).cons s).trans (List.perm_cons_erase hs).symm

theorem kahnAux_order :
    ∀ (fuel : Nat) (R : List Nat) (E : List (Nat × Nat)) (l : List Nat),
      kahnAux fuel R E = some l →
      ∀ u v, (u, v) ∈ E → u ∈ R → v ∈ R → List.Sublist [u, v] l := by
  intro fuel
  induction fuel with
  | zero =>
    intro R E l h u v _ hu _
    match R, h with
    | [], _ => exact absurd hu (List.not_mem_nil u)
  | succ f ih =>
    intro R E l h u v he hu hv
    match R with
    | [] => exact absurd hu (List.not_mem_nil u)
    | r :: rs =>
      simp only [kahnAux] at h
      match hps : pickSource (r :: rs) E with
      | none => rw [hps] at h; exact absurd h (by simp)
      | some s =>
        simp only [hps, Option.some_bind] at h
        match hrec : kahnAux f ((r :: rs).erase s) E with
        | none => rw [hrec] at h; exact absurd h (by simp)
        | some l' =>
          rw [hrec, Option.map_some'] at h
          obtain rfl : s :: l' = l := by simpa using h
          have hsrc : ¬ ∃ w ∈ r :: rs, (w, s) ∈ E := (pickSource_some hps).2
          by_cases hvs : v = s
          · exact absurd ⟨u, hu, hvs ▸ he⟩ hsrc
          · have hv' : v ∈ (r :: rs).erase s := (List.mem_erase_of_ne hvs).mpr hv
            by_cases hus : u = s
            · have hvl : v ∈ l' := (kahnAux_perm f _ E l' hrec).symm.subset hv'
              exact hus ▸ (List.singleton_sublist.mpr hvl).cons₂ s
            · have hu' : u ∈ (r :: rs).erase s := (List.mem_erase_of_ne hus).mpr hu
              exact (ih _ E l' hrec u v he hu' hv').cons s

theorem kahnAux_stuck :
    ∀ (fuel : Nat) (R : List Nat) (E : List (Nat × Nat)) (S : List Nat),
      CycleSet E S → (∀ x ∈ S, x ∈ R) → kahnAux fuel R E = none := by
  intro fuel
  induction fuel with
  | zero =>
    intro R E S hS hsub
    match R with
    | [] =>
      obtain ⟨v, hv⟩ := List.exists_mem_of_ne_nil S hS.1
      exact absurd (hsub v hv) (List.not_mem_nil v)
    | r :: rs => rfl
  | succ f ih =>
    intro R E S hS hsub
    match R with
    | [] =>
      obtain ⟨v, hv⟩ := List.exists_mem_of_ne_nil S hS.1
      exact absurd (hsub v hv) (List.not_mem_nil v)
    | r :: rs =>
      simp only [kahnAux]
      match hps : pickSource (r :: rs) E with
      | none => rfl
      | some s =>
        have hsrc : ¬ ∃ w ∈ r :: rs, (w, s) ∈ E := (pickSource_some hps).2
        have hsS : s ∉ S := by
          intro hsS
          obtain ⟨u, huS, hue⟩ := hS.2 s hsS
          exact hsrc ⟨u, hsub u huS, hue⟩
        have hsub' : ∀ x ∈ S, x ∈ (r :: rs).erase s := by
          intro x hx
          have hxs : x ≠ s := fun hxs => hsS (by rw [← hxs]; exact hx)
          exact (List.mem_erase_of_ne hxs).mpr (hsub x hx)
        rw [Option.some_bind, ih _ E S hS hsub']
        rfl

theorem kahnAux_total :
    ∀ (fuel : Nat) (R : List Nat) (E : List (Nat × Nat)),
      (¬ ∃ S, CycleSet E S ∧ ∀ x ∈ S, x ∈ R) → R.length ≤ fuel →
      ∃ l, kahnAux fuel R E = some l := by
  intro fuel
  induction fuel with
  | zero =>
    intro R E _ hlen
    match R, hlen with
    | [], _ => exact ⟨[], rfl⟩
  | succ f ih =>
    intro R E hno hlen
    match R with
    | [] => exact ⟨[], rfl⟩
    | r :: rs =>
      simp only [kahnAux]
      match hps : pickSource (r :: rs) E with
      | none =>
        exfalso
        apply hno
        exact ⟨r :: rs, ⟨List.cons_ne_nil r rs, pickSource_none hps⟩, fun x hx => hx⟩
      | some s =>
        have hs : s ∈ r :: rs := (pickSource_some hps).1
        have hno' : ¬ ∃ S, CycleSet E S ∧ ∀ x ∈ S, x ∈ (r :: rs).erase s := by
          rintro ⟨S, hS, hsub⟩
          exact hno ⟨S, hS, fun x hx => List.erase_subset _ _ (hsub x hx)⟩
        have hlen' : ((r :: rs).erase s).length ≤ f := by
          rw [List.length_erase_of_mem hs]
          simpa using Nat.le_of_succ_le_succ hlen
        obtain ⟨l', hl'⟩ := ih _ E hno' hlen'
        exact ⟨s :: l', by rw [Option.some_bind, hl']; rfl⟩

theorem cycleSet_hasCycle {E : List (Nat × Nat)} {S : List Nat}
    (h : CycleSet E S) : ∃ v, Relation.TransGen (fun a b => (a, b) ∈ E) v v := by
  classical
  obtain ⟨hne, hstep⟩ := h
  have hstep' : ∀ v, v ∈ S → ∃ u, u ∈ S ∧ (u, v) ∈ E := by
    intro v hv; obtain ⟨u, hu, he⟩ := hstep v hv; exact ⟨u, hu, he⟩
  choose nxt hnxtS hnxtE using hstep'
  obtain ⟨v0, hv0⟩ := List.exists_mem_of_ne_nil S hne
  let f : Nat → {x : Nat // x ∈ S} := fun n =>
    Nat.rec ⟨v0, hv0⟩ (fun _ p => ⟨nxt p.1 p.2, hnxtS p.1 p.2⟩) n
  have hedge : ∀ n, ((f (n + 1)).1, (f n).1) ∈ E := fun n => hnxtE (f n).1 (f n).2
  have hchain : ∀ d i, Relation.TransGen (fun a b => (a, b) ∈ E) (f (i + d + 1)).1 (f i).1 := by
    intro d
    induction d with
    | zero => intro i; exact Relation.TransGen.single (hedge i)
    | succ d ihd =>
      intro i
      exact Relation.TransGen.head (hedge (i + d + 1)) (ihd i)
  have hpigeon : ∃ i j : Fin (S.length + 1), i ≠ j ∧ (f i.1).1 = (f j.1).1 := by
    have hcard : S.toFinset.card < (Finset.univ : Finset (Fin (S.length + 1))).card := by
      rw [Finset.card_univ, Fintype.card_fin]
      exact Nat.lt_succ_of_le (List.toFinset_card_le S)
    have hmaps : ∀ i ∈ (Finset.univ : Finset (Fin (S.length + 1))),
        (f i.1).1 ∈ S.toFinset := by
      intro i _
      exact List.mem_toFinset.mpr (f i.1).2
    obtain ⟨i, _, j, _, hij, heq⟩ :=
      Finset.exists_ne_map_eq_of_card_lt_of_maps_to hcard hmaps
    exact ⟨i, j, hij, heq⟩
  obtain ⟨i, j, hij, heq⟩ := hpigeon
  have hne : i.1 ≠ j.1 := fun hh => hij (Fin.ext hh)
  rcases Nat.lt_or_ge i.1 j.1 with hlt | hge
  · refine ⟨(f i.1).1, ?_⟩
    have hch := hchain (j.1 - i.1 - 1) i.1
    have hj : i.1 + (j.1 - i.1 - 1) + 1 = j.1 := by omega
    rw [hj] at hch
    exact heq ▸ hch
  · have hlt2 : j.1 < i.1 := by omega
    refine ⟨(f j.1).1, ?_⟩
    have hch := hchain (i.1 - j.1 - 1) j.1
    have hi : j.1 + (i.1 - j.1 - 1) + 1 = i.1 := by omega
    rw [hi] at hch
    exact heq.symm ▸ hch

theorem hasCycle_cycleSet {g : Graph} (h : HasCycle g) :
    ∃ S, CycleSet g.edges S := by
  obtain ⟨v, htg⟩ := h
  have key : ∀ a b, Relation.TransGen (edgeRel g) a b →
      ∃ S : List Nat, b ∈ S ∧ ∀ w ∈ S, ∃ u, (u ∈ S ∨ u = a) ∧ (u, w) ∈ g.edges := by
    intro a b htg2
    induction htg2 with
    | single hr =>
      rename_i c
      refine ⟨[c], List.mem_singleton_self c, fun w hw => ?_⟩
      rw [List.mem_singleton] at hw
      subst hw
      exact ⟨a, Or.inr rfl, hr⟩
    | tail hab hbc ihab =>
      obtain ⟨S, hbS, hS⟩ := ihab
      rename_i b' c'
      refine ⟨c' :: S, List.mem_cons_self _ _, fun w hw => ?_⟩
      rcases List.mem_cons.mp hw with hwc | hwS
      · exact ⟨b', Or.inl (List.mem_cons_of_mem _ hbS), hwc ▸ hbc⟩
      · obtain ⟨u, hu, hue⟩ := hS w hwS
        rcases hu with huS | hua
        · exact ⟨u, Or.inl (List.mem_cons_of_mem _ huS), hue⟩
        · exact ⟨u, Or.inr hua, hue⟩
  obtain ⟨S, hvS, hS⟩ := key v v htg
  refine ⟨S, List.ne_nil_of_mem hvS, fun w hw => ?_⟩
  obtain ⟨u, hu, hue⟩ := hS w hw
  rcases hu with huS | hua
  · exact ⟨u, huS, hue⟩
  · exact ⟨u, hua ▸ hvS, hue⟩

theorem cycleSet_subset_nodes {g : Graph} (hwf : g.WF) {S : List Nat}
    (hS : CycleSet g.edges S) : ∀ x ∈ S, x ∈ g.nodes := by
  intro x hx
  obtain ⟨u, _, hue⟩ := hS.2 x hx
  exact (hwf.2.2 _ hue).2.1

/-- C1 (code_bug direction): on a graph with a cycle, `topological_sort`
does **not** fail with `CycleDetectedError`: NetworkX raises
`NetworkXUnfeasible`, the `except nx.NetworkXError` clause does not match
it (it is not a `NetworkXError` subclass), and the exception escapes the
function unhandled. -/
theorem C1_cycle_escapes_as_networkx_exception (g : Graph) (hwf : g.WF)
    (hcyc : HasCycle g) :
    topological_sort g =
      .error (.nx (.unfeasible "Graph contains a cycle or graph changed during iteration")) ∧
    ∀ cyc, topological_sort g ≠ .error (.cycleDetected cyc) := by
  obtain ⟨S, hS⟩ := hasCycle_cycleSet hcyc
  have hnone : kahnAux g.nodes.length g.nodes g.edges = none :=
    kahnAux_stuck _ _ _ S hS (cycleSet_subset_nodes hwf hS)
  have hmain : topological_sort g =
      .error (.nx (.unfeasible "Graph contains a cycle or graph changed during iteration")) := by
    unfold topological_sort nxTopologicalSort
    rw [hnone]
    rfl
  exact ⟨hmain, fun cyc h => by rw [hmain] at h; simp at h⟩

/-- Witness for C1 on the two-node cycle 0 → 1 → 0. -/
theorem C1_cycle_escapes_witness :
    (Graph.mk [0, 1] [(0, 1), (1, 0)]).WF ∧
    topological_sort (Graph.mk [0, 1] [(0, 1), (1, 0)]) =
      .error (.nx (.unfeasible "Graph contains a cycle or graph changed during iteration")) :=
  ⟨by decide,
   (C1_cycle_escapes_as_networkx_exception (Graph.mk [0, 1] [(0, 1), (1, 0)])
      (by decide)
      ⟨0, Relation.TransGen.head (show edgeRel _ 0 1 by decide)
        (Relation.TransGen.single (show edgeRel _ 1 0 by decide))⟩).1⟩

/-- C4: on an acyclic well-formed graph, `topological_sort` succeeds; the
result is a permutation of the node set (each node appears exactly once),
and for every edge `(a, b)` — a depends on b — `b` occurs before `a`
(`[b, a]` is a sublist of the output). -/
theorem C4_topological_sort_correct (g : Graph) (hwf : g.WF) (hacy : Acyclic g) :
    isOk (topological_sort g) = true ∧
    ∀ l, topological_sort g = .ok l →
      l.Perm g.nodes ∧ ∀ a b, (a, b) ∈ g.edges → List.Sublist [b, a] l := by
  have hno : ¬ ∃ S, CycleSet g.edges S ∧ ∀ x ∈ S, x ∈ g.nodes := by
    rintro ⟨S, hS, _⟩
    exact hacy (cycleSet_hasCycle hS)
  obtain ⟨kl, hkl⟩ := kahnAux_total g.nodes.length g.nodes g.edges hno (le_refl _)
  have hts : topological_sort g = .ok kl.reverse := by
    unfold topological_sort nxTopologicalSort
    rw [hkl]
  refine ⟨by rw [hts]; rfl, ?_⟩
  intro l hl
  rw [hts] at hl
  obtain rfl : kl.reverse = l := by simpa using hl
  constructor
  · exact kl.reverse_perm.trans (kahnAux_perm _ _ _ _ hkl)
  · intro a b he
    have ha : a ∈ g.nodes := (hwf.2.2 _ he).1
    have hb : b ∈ g.nodes := (hwf.2.2 _ he).2.1
    have horder : List.Sublist [a, b] kl := kahnAux_order _ _ _ _ hkl a b he ha hb
    have := horder.reverse
    simpa using this

/-- Witness for C4 on the single-edge DAG 0 → 1. -/
theorem C4_topological_sort_witness :
    (Graph.mk [0, 1] [(0, 1)]).WF ∧
    isOk (topological_sort (Graph.mk [0, 1] [(0, 1)])) = true ∧
    ([1, 0].Perm [0, 1] ∧ List.Sublist [1, 0] [1, 0]) := by
  have hacy : Acyclic (Graph.mk [0, 1] [(0, 1)]) := by
    rintro ⟨v, htg⟩
    have key : ∀ a b, Relation.TransGen (edgeRel (Graph.mk [0, 1] [(0, 1)])) a b →
        a = 0 ∧ b = 1 := by
      intro a b h
      induction h with
      | single hr =>
        rename_i c
        have h2 : (a, c) = (0, 1) := by simpa [edgeRel] using hr
        exact Prod.ext_iff.mp h2
      | tail hab hbc ihab =>
        rename_i b2 c2
        have h2 : (b2, c2) = (0, 1) := by simpa [edgeRel] using hbc
        have hb1 : b2 = 1 := ihab.2
        have hb0 : b2 = 0 := (Prod.ext_iff.mp h2).1
        omega
    have := key v v htg
    omega
  have main := C4_topological_sort_correct (Graph.mk [0, 1] [(0, 1)]) (by decide) hacy
  have hres : topological_sort (Graph.mk [0, 1] [(0, 1)]) = .ok [1, 0] := by decide
  have hprops := main.2 [1, 0] hres
  exact ⟨by decide, main.1, hprops.1, hprops.2 0 1 (by decide)⟩

/-- BFS shortest-path search modelling `nx.shortest_path` on an unweighted
digraph: the queue holds reversed paths (head is the frontier node);
`visited` marks nodes already enqueued. -/
def bfsPath (g : Graph) (target : Nat) :
    Nat → List (List Nat) → List Nat → Option (List Nat)
  | 0, _, _ => none
  | _ + 1, [], _ => none
  | fuel + 1, p :: rest, visited =>
    match p with
    | [] => none
    | cur :: _ =>
      if cur = target then some p.reverse
      else
        let nbs := (successors g cur).filter (fun n => n ∉ visited)
        bfsPath g target fuel (rest ++ nbs.map (fun n => n :: p)) (visited ++ nbs)

/-- Iteration budget for the shortest-path BFS: every node is enqueued at
most once. -/
def pathFuel (g : Graph) : Nat :=
  g.nodes.length + g.edges.length + 2

/-- `find_path` (graph_ops.py lines 382–418): `[source]` when
`source == target` (checked first, before the membership test), `None`
when an endpoint is missing or no path exists, otherwise a BFS shortest
path. -/
def find_path (g : Graph) (s t : Nat) : Option (List Nat) :=
  if s = t then some [s]
  else if s ∉ g.nodes ∨ t ∉ g.nodes then none
  else bfsPath g t (pathFuel g) [[s]] [s]

/-- DFS enumeration of simple paths modelling `nx.all_simple_paths`: the
stack holds `(frontier node, reversed path)` frames; children are pushed
in adjacency order so paths are emitted in DFS order. -/
def allSimplePathsAux (g : Graph) (t : Nat) :
    Nat → List (Nat × List Nat) → List (List Nat)
  | 0, _ => []
  | _ + 1, [] => []
  | fuel + 1, (cur, path) :: rest =>
    if cur = t then path.reverse :: allSimplePathsAux g t fuel rest
    else
      let nbs := (successors g cur).filter (fun n => n ∉ path)
      allSimplePathsAux g t fuel (nbs.map (fun n => (n, n :: path)) ++ rest)

/-- Work budget for the simple-path DFS: the number of simple-path prefixes
is bounded by the count of node sequences without repetition. -/
def spFuel (g : Graph) : Nat :=
  (g.nodes.length + 1) ^ (g.nodes.length + 1) + g.edges.length + 2

/-- `find_all_paths` (graph_ops.py lines 421–471): `[[source]]` when
`source == target`, `[]` when an endpoint is missing, otherwise up to
`max_paths` simple paths in generation order, then sorted by length
(Python's stable sort). -/
def find_all_paths (g : Graph) (s t : Nat) (maxPaths : Nat) : List (List Nat) :=
  if s = t then [[s]]
  else if s ∉ g.nodes ∨ t ∉ g.nodes then []
  else
    ((allSimplePathsAux g t (spFuel g) [(s, [s])]).take maxPaths).insertionSort
      (fun a b => a.length ≤ b.length)

theorem bfsPath_reaches (g : Graph) (t s : Nat) :
    ∀ (fuel : Nat) (queue : List (List Nat)) (visited : List Nat) (res : List Nat),
      bfsPath g t fuel queue visited = some res →
      (∀ p ∈ queue, ∃ c pr, p = c :: pr ∧ Reaches g s c) →
      Reaches g s t := by
  intro fuel
  induction fuel with
  | zero => intro queue visited res h _; simp [bfsPath] at h
  | succ f ih =>
    intro queue visited res h hinv
    match queue with
    | [] => simp [bfsPath] at h
    | p :: rest =>
      obtain ⟨c, pr, rfl, hreach⟩ := hinv _ (List.mem_cons_self _ _)
      by_cases hct : c = t
      · exact hct ▸ hreach
      · simp only [bfsPath, hct, if_false] at h
        refine ih _ _ _ h ?_
        intro q hq
        rcases List.mem_append.mp hq with hq1 | hq2
        · exact hinv q (List.mem_cons_of_mem _ hq1)
        · obtain ⟨n, hn, rfl⟩ := List.mem_map.mp hq2
          have hns : n ∈ successors g c := List.mem_of_mem_filter hn
          have hedge : edgeRel g c n := (mem_successors g c n).mp hns
          exact ⟨n, c :: pr, rfl, hreach.tail hedge⟩

theorem allSimplePathsAux_reaches (g : Graph) (t s : Nat) :
    ∀ (fuel : Nat) (stack : List (Nat × List Nat)) (res : List Nat),
      res ∈ allSimplePathsAux g t fuel stack →
      (∀ fr ∈ stack, Reaches g s fr.1) →
      Reaches g s t := by
  intro fuel
  induction fuel with
  | zero => intro stack res h _; simp [allSimplePathsAux] at h
  | succ f ih =>
    intro stack res h hinv
    match stack with
    | [] => simp [allSimplePathsAux] at h
    | (cur, path) :: rest =>
      have hreach : Reaches g s cur := hinv _ (List.mem_cons_self _ _)
      by_cases hct : cur = t
      · exact hct ▸ hreach
      · simp only [allSimplePathsAux, hct, if_false] at h
        refine ih _ _ h ?_
        intro fr hfr
        rcases List.mem_append.mp hfr with hf1 | hf2
        · obtain ⟨n, hn, rfl⟩ := List.mem_map.mp hf1
          have hns : n ∈ successors g cur := List.mem_of_mem_filter hn
          exact hreach.tail ((mem_successors g cur n).mp hns)
        · exact hinv fr (List.mem_cons_of_mem _ hf2)

/-- C7 (amended): when the endpoints differ and either endpoint is missing
or no path exists, `find_path` returns `None` and `find_all_paths` returns
`[]`.  (The claim's additional `source = target` case is refuted by
`C7_self_pair_counterexample`.) -/
theorem C7_missing_or_disconnected (g : Graph) (s t maxPaths : Nat)
    (hne : s ≠ t) (h : s ∉ g.nodes ∨ t ∉ g.nodes ∨ ¬ Reaches g s t) :
    find_path g s t = none ∧ find_all_paths g s t maxPaths = [] := by
  by_cases hmem : s ∉ g.nodes ∨ t ∉ g.nodes
  · constructor
    · simp only [find_path, if_neg hne, if_pos hmem]
    · simp only [find_all_paths, if_neg hne, if_pos hmem]
  · have hnr : ¬ Reaches g s t := by
      rcases h with h1 | h2 | h3
      · exact absurd (Or.inl h1) hmem
      · exact absurd (Or.inr h2) hmem
      · exact h3
    constructor
    · match hb : bfsPath g t (pathFuel g) [[s]] [s] with
      | none => simp only [find_path, if_neg hne, if_neg hmem]; exact hb
      | some res =>
        exfalso
        refine hnr (bfsPath_reaches g t s _ _ _ _ hb ?_)
        intro p hp
        rw [List.mem_singleton] at hp
        exact ⟨s, [], hp, Relation.ReflTransGen.refl⟩
    · simp only [find_all_paths, if_neg hne, if_neg hmem]
      have hempty : (allSimplePathsAux g t (spFuel g) [(s, [s])]).take maxPaths = [] := by
        by_contra hne2
        obtain ⟨p, hp⟩ := List.exists_mem_of_ne_nil _ hne2
        have hpm : p ∈ allSimplePathsAux g t (spFuel g) [(s, [s])] :=
          List.take_subset _ _ hp
        refine hnr (allSimplePathsAux_reaches g t s _ _ _ hpm ?_)
        intro fr hfr
        rw [List.mem_singleton] at hfr
        rw [hfr]
        exact Relation.ReflTransGen.refl
      rw [hempty]
      rfl

/-- Counterexample to C7 as stated: with `source = target = 0` absent from
an empty graph, `find_path` returns `[0]` (not `None`) and
`find_all_paths` returns `[[0]]` (not `[]`) — the `source == target`
shortcut runs before the membership check. -/
theorem C7_self_pair_counterexample :
    find_path (Graph.mk [] []) 0 0 = some [0] ∧
    find_all_paths (Graph.mk [] []) 0 0 10 = [[0]] ∧
    find_path (Graph.mk [] []) 0 0 ≠ none ∧
    find_all_paths (Graph.mk [] []) 0 0 10 ≠ [] := by
  refine ⟨rfl, rfl, ?_, ?_⟩ <;> decide

/-- Witness for the amended C7 on a graph that misses the source node. -/
theorem C7_missing_witness :
    (0 : Nat) ≠ 1 ∧
    find_path (Graph.mk [1] []) 0 1 = none ∧
    find_all_paths (Graph.mk [1] []) 0 1 10 = [] :=
  ⟨by decide,
   (C7_missing_or_disconnected (Graph.mk [1] []) 0 1 10 (by decide)
      (Or.inl (by decide))).1,
   (C7_missing_or_disconnected (Graph.mk [1] []) 0 1 10 (by decide)
      (Or.inl (by decide))).2⟩

/-- Sequential processing of a neighbour list (`for node in next_nodes:`),
threading the `(visited, max_depth)` state through `step`. -/
def mdFold (step : Nat → List Nat × Nat → Option (List Nat × Nat)) :
    List Nat → List Nat × Nat → Option (List Nat × Nat)
  | [], st => some st
  | n :: rest, st => (step n st).bind fun st2 => mdFold step rest st2

/-- The inner `dfs` of `_calculate_max_depth` (impact_analyzer.py lines
470–488): return immediately on a revisited node, otherwise record the
node, update the running maximum with the current depth, and recurse into
each neighbour at `depth + 1`.  State is `(visited, max_depth)`; `fuel`
bounds the recursion depth — each nested frame adds one unvisited node to
`visited`, so node count + 1 always suffices (`mdDfs_total`). -/
def mdDfs (adj : Nat → List Nat) :
    Nat → Nat → Nat → List Nat × Nat → Option (List Nat × Nat)
  | 0, _, _, _ => none
  | fuel + 1, cur, depth, st =>
    if cur ∈ st.1 then some st
    else mdFold (fun n st2 => mdDfs adj fuel n (depth + 1) st2) (adj cur)
      (cur :: st.1, max st.2 depth)

/-- `_calculate_max_depth` (impact_analyzer.py lines 455–489). -/
def calculate_max_depth (g : Graph) (id : Nat) (direction : String) : Nat :=
  let adj := if direction = "dependents" then get_dependents g else get_dependencies g
  match mdDfs adj (g.nodes.length + 1) id 0 ([], 0) with
  | some st => st.2
  | none => 0

/-- Number of graph nodes not yet visited. -/
def ucount (N v : List Nat) : Nat := (N.toFinset \ v.toFinset).card

theorem ucount_mono {N v v2 : List Nat} (h : ∀ x ∈ v, x ∈ v2) :
    ucount N v2 ≤ ucount N v := by
  apply Finset.card_le_card
  apply Finset.sdiff_subset_sdiff (le_refl _)
  intro x hx
  exact List.mem_toFinset.mpr (h x (List.mem_toFinset.mp hx))

theorem ucount_cons_lt {N v : List Nat} {cur : Nat} (hN : cur ∈ N) (hv : cur ∉ v) :
    ucount N (cur :: v) < ucount N v := by
  apply Finset.card_lt_card
  rw [Finset.ssubset_iff_of_subset]
  · refine ⟨cur, ?_, ?_⟩
    · exact Finset.mem_sdiff.mpr ⟨List.mem_toFinset.mpr hN,
        fun hc => hv (List.mem_toFinset.mp hc)⟩
    · intro hc
      have := (Finset.mem_sdiff.mp hc).2
      exact this (List.mem_toFinset.mpr (List.mem_cons_self cur v))
  · apply Finset.sdiff_subset_sdiff (le_refl _)
    intro x hx
    exact List.mem_toFinset.mpr (List.mem_cons_of_mem _ (List.mem_toFinset.mp hx))

theorem mdFold_mono (step : Nat → List Nat × Nat → Option (List Nat × Nat))
    (hstep : ∀ n st st2, step n st = some st2 → ∀ x ∈ st.1, x ∈ st2.1) :
    ∀ (nbs : List Nat) (st st2 : List Nat × Nat),
      mdFold step nbs st = some st2 → ∀ x ∈ st.1, x ∈ st2.1 := by
  intro nbs
  induction nbs with
  | nil =>
    intro st st2 h
    obtain rfl : st = st2 := by simpa [mdFold] using h
    exact fun x hx => hx
  | cons n rest ihn =>
    intro st st2 h
    simp only [mdFold] at h
    match hm : step n st with
    | none => rw [hm] at h; simp at h
    | some stm =>
      rw [hm, Option.some_bind] at h
      exact fun x hx => ihn stm st2 h x (hstep n st stm hm x hx)

theorem mdFold_total (step : Nat → List Nat × Nat → Option (List Nat × Nat))
    (N : List Nat) (bound : Nat)
    (hmono : ∀ n st st2, step n st = some st2 → ∀ x ∈ st.1, x ∈ st2.1)
    (hstep : ∀ n st, n ∈ N → ucount N st.1 < bound → (step n st).isSome = true) :
    ∀ (nbs : List Nat) (st : List Nat × Nat), (∀ n ∈ nbs, n ∈ N) →
      ucount N st.1 < bound → (mdFold step nbs st).isSome = true := by
  intro nbs
  induction nbs with
  | nil => intro st _ _; rfl
  | cons n rest ihn =>
    intro st hn hu
    simp only [mdFold]
    have h1 := hstep n st (hn n (List.mem_cons_self _ _)) hu
    match hm : step n st with
    | none => rw [hm] at h1; simp at h1
    | some stm =>
      rw [Option.some_bind]
      have hle : ucount N stm.1 ≤ ucount N st.1 := ucount_mono (hmono n st stm hm)
      exact ihn stm (fun m hm2 => hn m (List.mem_cons_of_mem _ hm2)) (by omega)

theorem mdDfs_mono (adj : Nat → List Nat) : ∀ (fuel : Nat),
    ∀ cur depth st st2, mdDfs adj fuel cur depth st = some st2 →
      ∀ x ∈ st.1, x ∈ st2.1 := by
  intro fuel
  induction fuel with
  | zero => intro cur depth st st2 h; simp [mdDfs] at h
  | succ f ih =>
    intro cur depth st st2 h
    simp only [mdDfs] at h
    by_cases hc : cur ∈ st.1
    · rw [if_pos hc] at h
      obtain rfl : st = st2 := by simpa using h
      exact fun x hx => hx
    · rw [if_neg hc] at h
      intro x hx
      exact mdFold_mono _ (fun n a b hh => ih n (depth + 1) a b hh) _ _ _ h x
        (List.mem_cons_of_mem _ hx)

theorem mdDfs_total (adj : Nat → List Nat) (N : List Nat)
    (hadj : ∀ n, ∀ m ∈ adj n, m ∈ N) : ∀ (fuel : Nat),
    ∀ cur depth st, cur ∈ N → ucount N st.1 < fuel →
      (mdDfs adj fuel cur depth st).isSome = true := by
  intro fuel
  induction fuel with
  | zero => intro cur depth st _ hu; omega
  | succ f ih =>
    intro cur depth st hcN hu
    simp only [mdDfs]
    by_cases hc : cur ∈ st.1
    · rw [if_pos hc]; rfl
    · rw [if_neg hc]
      have hlt : ucount N (cur :: st.1) < ucount N st.1 := ucount_cons_lt hcN hc
      have h2 : ucount N (cur :: st.1) < f := by omega
      exact mdFold_total _ N f (fun n a b hh => mdDfs_mono adj f n (depth + 1) a b hh)
        (fun n a hnN hub => ih n (depth + 1) a hnN hub)
        (adj cur) (cur :: st.1, max st.2 depth) (fun m hm => hadj cur m hm) h2

theorem adj_mem_nodes_dependents (g : Graph) (hwf : g.WF) :
    ∀ n, ∀ m ∈ get_dependents g n, m ∈ g.nodes := by
  intro n m hm
  unfold get_dependents at hm
  by_cases hn : n ∈ g.nodes
  · rw [if_pos hn] at hm
    exact (hwf.2.2 _ ((mem_predecessors g n m).mp hm)).1
  · rw [if_neg hn] at hm
    exact absurd hm (List.not_mem_nil m)

theorem adj_mem_nodes_dependencies (g : Graph) (hwf : g.WF) :
    ∀ n, ∀ m ∈ get_dependencies g n, m ∈ g.nodes := by
  intro n m hm
  unfold get_dependencies at hm
  by_cases hn : n ∈ g.nodes
  · rw [if_pos hn] at hm
    exact (hwf.2.2 _ ((mem_successors g n m).mp hm)).2.1
  · rw [if_neg hn] at hm
    exact absurd hm (List.not_mem_nil m)

/-- C9: the depth DFS of the impact analyzer terminates on every
well-formed finite graph, cyclic ones included: the visited set makes the
DFS return immediately on a revisited node, so each node is expanded at
most once and fuel equal to the node count plus one always suffices, in
both traversal directions. -/
theorem C9_max_depth_dfs_terminates (g : Graph) (id : Nat)
    (hwf : g.WF) (hid : id ∈ g.nodes) :
    (mdDfs (get_dependents g) (g.nodes.length + 1) id 0 ([], 0)).isSome = true ∧
    (mdDfs (get_dependencies g) (g.nodes.length + 1) id 0 ([], 0)).isSome = true := by
  have hu : ucount g.nodes [] < g.nodes.length + 1 := by
    unfold ucount
    simp only [List.toFinset_nil, Finset.sdiff_empty]
    exact Nat.lt_succ_of_le (List.toFinset_card_le g.nodes)
  exact ⟨mdDfs_total (get_dependents g) g.nodes
           (adj_mem_nodes_dependents g hwf) (g.nodes.length + 1) id 0 ([], 0) hid hu,
         mdDfs_total (get_dependencies g) g.nodes
           (adj_mem_nodes_dependencies g hwf) (g.nodes.length + 1) id 0 ([], 0) hid hu⟩

/-- Witness for C9 on the cyclic graph 0 → 1 → 0. -/
theorem C9_max_depth_dfs_terminates_witness :
    (Graph.mk [0, 1] [(0, 1), (1, 0)]).WF ∧
    (mdDfs (get_dependents (Graph.mk [0, 1] [(0, 1), (1, 0)])) 3 0 0 ([], 0)).isSome = true ∧
    (mdDfs (get_dependencies (Graph.mk [0, 1] [(0, 1), (1, 0)])) 3 0 0 ([], 0)).isSome = true :=
  ⟨by decide,
   (C9_max_depth_dfs_terminates (Graph.mk [0, 1] [(0, 1), (1, 0)]) 0 (by decide) (by decide)).1,
   (C9_max_depth_dfs_terminates (Graph.mk [0, 1] [(0, 1), (1, 0)]) 0 (by decide) (by decide)).2⟩

/-- `ImpactSeverity` (impact_analyzer.py lines 40–47). -/
inductive ImpactSeverity where
  | minimal
  | low
  | medium
  | high
  | critical
  deriving Repr, DecidableEq

/-- The severity bucketing of `calculate_impact_metrics`
(impact_analyzer.py lines 264–275): thresholds on the blast radius. -/
def severityFor (blastRadius : Nat) : ImpactSeverity :=
  if blastRadius < 5 then .minimal
  else if blastRadius < 21 then .low
  else if blastRadius < 101 then .medium
  else if blastRadius < 501 then .high
  else .critical

/-- `CriticalPath` (impact_analyzer.py lines 124–155).  `total_weight` is
`float(len(path))` in the source — always a whole number, kept as `Nat`. -/
structure CriticalPath where
  path : List Nat
  length : Nat
  total_weight : Nat
  deriving Repr, DecidableEq

/-- Association-list lookup modelling the `longest_path_to` dict (keys are
distinct because they come from a topological order). -/
def alookup (m : List (Nat × List Nat)) (k : Nat) : Option (List Nat) :=
  (m.find? (fun p => p.1 == k)).map Prod.snd

/-- `DependencyImpactAnalyzer.find_critical_path` (impact_analyzer.py lines
351–407), faithfully including its traversal order: the DP iterates
`reversed(topo_order)` — the NetworkX order, dependents first — so each
node is processed before its dependencies and `longest_path_to.get`
falls back to the default `[dep.id]`. -/
def find_critical_path (g : Graph) : Option CriticalPath :=
  if 0 < (find_circular_dependencies g).length then none
  else
    match topological_sort g with
    | .error _ => none
    | .ok topo =>
      let lpt := topo.reverse.foldl (fun m node =>
        let deps := get_dependencies g node
        if deps.isEmpty then m ++ [(node, [node])]
        else
          let best := deps.foldl (fun b d =>
            let dp := (alookup m d).getD [d]
            if b.length < dp.length then dp else b) []
          m ++ [(node, node :: best)]) []
      match lpt with
      | [] => none
      | p0 :: rest =>
        let longest := rest.foldl
          (fun bst q => if bst.2.length < q.2.length then q else bst) p0
        some ⟨longest.2, longest.2.length, longest.2.length⟩

/-- `ImpactMetrics` (impact_analyzer.py lines 55–121). -/
structure ImpactMetrics where
  entity_id : Nat
  direct_dependents : Nat
  total_dependents : Nat
  direct_dependencies : Nat
  total_dependencies : Nat
  severity : ImpactSeverity
  is_critical_path : Bool
  circular_dependencies : Nat
  max_depth_to_dependents : Nat
  max_depth_from_dependencies : Nat
  deriving Repr, DecidableEq

/-- `calculate_impact_metrics` (impact_analyzer.py lines 237–298):
`ValueError` for an unknown entity, otherwise the metrics record; the
severity is derived from the blast radius (count of transitive
dependents) alone. -/
def calculate_impact_metrics (g : Graph) (id : Nat) : Except PyErr ImpactMetrics :=
  if id ∉ g.nodes then
    .error (.valueError ("Entity " ++ toString id ++ " not found in graph"))
  else
    let direct_deps := get_dependencies g id
    let direct_dependents := get_dependents g id
    let transitive_deps := get_transitive_dependencies g id none
    let transitive_dependents := get_transitive_dependents g id none
    let cycles := find_circular_dependencies g
    let circular_count := (cycles.filter (fun c => id ∈ c)).length
    let severity := severityFor transitive_dependents.length
    let is_on_critical := match find_critical_path g with
      | some cp => id ∈ cp.path
      | none => false
    .ok ⟨id, direct_dependents.length, transitive_dependents.length,
      direct_deps.length, transitive_deps.length, severity, is_on_critical,
      circular_count, calculate_max_depth g id "dependents",
      calculate_max_depth g id "dependencies"⟩

/-- C5: the severity field of the computed metrics is a function of the
blast radius (the count of transitive dependents) alone, bucketed at the
thresholds 5, 21, 101, 501; in particular a blast radius of 150 yields
HIGH. -/
theorem C5_severity_from_blast_radius (g : Graph) (id : Nat) (m : ImpactMetrics)
    (h : calculate_impact_metrics g id = .ok m) :
    m.severity = severityFor (get_transitive_dependents g id none).length ∧
    m.total_dependents = (get_transitive_dependents g id none).length ∧
    (m.total_dependents = 150 → m.severity = .high) ∧
    ∀ b : Nat,
      (b < 5 → severityFor b = .minimal) ∧
      (5 ≤ b → b < 21 → severityFor b = .low) ∧
      (21 ≤ b → b < 101 → severityFor b = .medium) ∧
      (101 ≤ b → b < 501 → severityFor b = .high) ∧
      (501 ≤ b → severityFor b = .critical) := by
  unfold calculate_impact_metrics at h
  by_cases hid : id ∉ g.nodes
  · rw [if_pos hid] at h
    exact absurd h (by simp)
  · rw [if_neg hid] at h
    obtain rfl : (⟨id, _, _, _, _, _, _, _, _, _⟩ : ImpactMetrics) = m := by
      simpa using h
    refine ⟨rfl, rfl, ?_, ?_⟩
    · intro h150
      have hlen : (get_transitive_dependents g id none).length = 150 := h150
      show severityFor (get_transitive_dependents g id none).length = ImpactSeverity.high
      rw [hlen]
      rfl
    · intro b
      refine ⟨?_, ?_, ?_, ?_, ?_⟩
      · intro h1; unfold severityFor; rw [if_pos h1]
      · intro h1 h2; unfold severityFor
        rw [if_neg (by omega), if_pos h2]
      · intro h1 h2; unfold severityFor
        rw [if_neg (by omega), if_neg (by omega), if_pos h2]
      · intro h1 h2; unfold severityFor
        rw [if_neg (by omega), if_neg (by omega), if_neg (by omega), if_pos h2]
      · intro h1; unfold severityFor
        rw [if_neg (by omega), if_neg (by omega), if_neg (by omega), if_neg (by omega)]

/-- Witness for C5 on the DAG 0 → 1 at entity 0 (blast radius 0). -/
theorem C5_severity_witness :
    calculate_impact_metrics (Graph.mk [0, 1] [(0, 1)]) 0 =
      .ok ⟨0, 0, 0, 1, 1, .minimal, true, 0, 0, 1⟩ ∧
    (ImpactSeverity.minimal =
      severityFor (get_transitive_dependents (Graph.mk [0, 1] [(0, 1)]) 0 none).length) :=
  ⟨by decide,
   (C5_severity_from_blast_radius (Graph.mk [0, 1] [(0, 1)]) 0
      ⟨0, 0, 0, 1, 1, .minimal, true, 0, 0, 1⟩ (by decide)).1⟩

/-- `SolutionStatus` (solver/base.py lines 29–37). -/
inductive SolutionStatus where
  | optimal
  | feasible
  | infeasible
  | unknown
  | timeout
  | error
  deriving Repr, DecidableEq

/-- The `.value` string of the status enum. -/
def statusName : SolutionStatus → String
  | .optimal => "optimal"
  | .feasible => "feasible"
  | .infeasible => "infeasible"
  | .unknown => "unknown"
  | .timeout => "timeout"
  | .error => "error"

/-- `Assignment` (solver/base.py lines 45–61).  Assigned values in the
CP-SAT adapter are integers; the source field `attribute` is spelled
`attr` because `attribute` is reserved in Lean. -/
structure Assignment where
  entity_id : Nat
  attr : String
  value : Int
  unit : Option String
  deriving Repr, DecidableEq

/-- `Solution` (solver/base.py lines 64–118).  The wall-clock field
`solve_time_seconds` and the free-form `metadata` dict carry no checked
content and are omitted. -/
structure Solution where
  status : SolutionStatus
  assignments : List Assignment
  objective_value : Option Int
  proof : Option String
  deriving Repr, DecidableEq

/-- `Solution.__post_init__` (solver/base.py lines 92–102): constructing an
OPTIMAL or FEASIBLE solution with no assignments raises `ValueError`. -/
def Solution.make (status : SolutionStatus) (assignments : List Assignment)
    (objective_value : Option Int) (pf : Option String) : Except PyErr Solution :=
  if (status = .optimal ∨ status = .feasible) ∧ assignments = [] then
    .error (.valueError ("Status " ++ statusName status ++
      " requires non-empty assignments"))
  else
    .ok ⟨status, assignments, objective_value, pf⟩

/-- `Solution.get_assignment` (solver/base.py lines 104–114). -/
def get_assignment (sol : Solution) (eid : Nat) (attr : String) : Option Assignment :=
  sol.assignments.find? (fun a => a.entity_id == eid && a.attr == attr)

/-- Solver-side view of an `Entity`: the CP-SAT adapter reads an entity's
`id`, its `name` (only to label backend variables) and
`metadata.get("duration", 1)`.  `duration = none` models a missing key
(the default 1 applies). -/
structure Entity where
  id : Nat
  name : String
  duration : Option Int
  deriving Repr, DecidableEq

/-- Solver-side view of a `Constraint`: a type string and the ordered
participant entity IDs. -/
structure Constraint where
  id : Nat
  type : String
  entities : List Nat
  deriving Repr, DecidableEq

/-- `Objective` (solver/base.py lines 143–158). -/
structure Objective where
  name : String
  direction : String
  expression : String
  deriving Repr, DecidableEq

/-- The CP-SAT solver status codes returned by `solver.Solve(model)`. -/
inductive CpStatus where
  | optimal
  | feasible
  | infeasible
  | modelInvalid
  | unknown
  deriving Repr, DecidableEq

/-- The `status_map` of `_decode_solution` (or_tools_adapter.py lines
924–931), with `.get(status, UNKNOWN)` as the default. -/
def statusMap : CpStatus → SolutionStatus
  | .optimal => .optimal
  | .feasible => .feasible
  | .infeasible => .infeasible
  | .modelInvalid => .error
  | .unknown => .unknown

/-- `_encode_variables` (or_tools_adapter.py lines 795–818), restricted to
the variable-key dictionary it populates: for each entity the keys
`{id}_start`, `{id}_end`, `{id}_duration`.  Creating the backend integer
variables and the `end == start + duration` link cannot raise for integer
durations. -/
def encode_variables (entities : List Entity) : List String :=
  (entities.map (fun e =>
    [toString e.id ++ "_start", toString e.id ++ "_end",
     toString e.id ++ "_duration"])).flatten

/-- Sequential dictionary lookups (`self._variables[key]`): the first
missing key raises `KeyError`. -/
def requireVars (vars : List String) : List String → Except PyErr Unit
  | [] => .ok ()
  | k :: rest => if k ∈ vars then requireVars vars rest else .error (.keyError k)

/-- One iteration of `_encode_constraints` (or_tools_adapter.py lines
820–830) together with the dispatched `_encode_precedence` /
`_encode_mutex` / `_encode_choice` bodies, restricted to their effects on
the variable-key dictionary and the exceptions they can raise:
`IndexError` on missing participants, `KeyError` on a participant without
encoded variables (lookups in source order), the `selected_...` keys added
by choice, and `ValueError` for an unsupported type string. -/
def encodeConstraint (vars : List String) (c : Constraint) : Except PyErr (List String) :=
  if c.type = "precedence" then
    match c.entities.get? 0, c.entities.get? 1 with
    | some a, some b =>
      match requireVars vars [toString a ++ "_end", toString b ++ "_start"] with
      | .error e => .error e
      | .ok _ => .ok vars
    | _, _ => .error .indexError
  else if c.type = "mutex" then
    match c.entities.get? 0, c.entities.get? 1 with
    | some a, some b =>
      match requireVars vars [toString a ++ "_start", toString a ++ "_end",
          toString a ++ "_duration", toString b ++ "_start", toString b ++ "_end",
          toString b ++ "_duration"] with
      | .error e => .error e
      | .ok _ => .ok vars
    | _, _ => .error .indexError
  else if c.type = "choice" then
    .ok (vars ++ c.entities.map (fun eid => toString eid ++ "_selected"))
  else
    .error (.valueError ("Unsupported constraint type: " ++ c.type))

/-- `_encode_constraints` (or_tools_adapter.py lines 820–830): constraints
processed in order; the first failure propagates. -/
def encode_constraints (vars : List String) : List Constraint → Except PyErr (List String)
  | [] => .ok vars
  | c :: rest =>
    match encodeConstraint vars c with
    | .error e => .error e
    | .ok vars2 => encode_constraints vars2 rest

/-- `_decode_solution` (or_tools_adapter.py lines 911–1007): map the
backend status; for OPTIMAL/FEASIBLE extract start/end (and selected)
assignments per entity from the backend valuation, else build an empty
solution carrying `Problem is {status}`.  Both branches construct the
`Solution` through its contract check. -/
def decode_solution (vars : List String) (status : CpStatus) (entities : List Entity)
    (value : String → Int) (objVal : Option Int) : Except PyErr Solution :=
  let st := statusMap status
  if st = .optimal ∨ st = .feasible then
    let assignments := entities.foldl (fun acc e =>
      let acc2 :=
        if (toString e.id ++ "_start") ∈ vars ∧ (toString e.id ++ "_end") ∈ vars then
          acc ++ [⟨e.id, "start_time", value (toString e.id ++ "_start"), some "time_unit"⟩,
                  ⟨e.id, "end_time", value (toString e.id ++ "_end"), some "time_unit"⟩]
        else acc
      if (toString e.id ++ "_selected") ∈ vars then
        acc2 ++ [⟨e.id, "selected", value (toString e.id ++ "_selected"), none⟩]
      else acc2) []
    Solution.make st assignments objVal none
  else
    Solution.make st [] none (some ("Problem is " ++ statusName st))

/-- The body of `ORToolsSolver.solve` inside its `try` block
(or_tools_adapter.py lines 91–111): encode the variables, encode the
constraints, optionally encode the objective (which only adds backend
constraints and cannot raise), run the backend, decode.  The backend
outcome is abstracted by `status`, the valuation `value` and `objVal`;
`objective` does not influence the dictionary of variable keys. -/
def solveBody (entities : List Entity) (constraints : List Constraint)
    (objective : Option Objective) (status : CpStatus)
    (value : String → Int) (objVal : Option Int) : Except PyErr Solution :=
  match encode_constraints (encode_variables entities) constraints with
  | .error e => .error e
  | .ok vars2 => decode_solution vars2 status entities value objVal

/-- `ORToolsSolver.solve` (or_tools_adapter.py lines 74–120): every
exception raised in the body is caught by `except Exception` and turned
into an ERROR solution carrying `Solver error: {e}` diagnostics — the
caller always receives a `Solution` value. -/
def solve (entities : List Entity) (constraints : List Constraint)
    (objective : Option Objective) (status : CpStatus)
    (value : String → Int) (objVal : Option Int) : Solution :=
  match solveBody entities constraints objective status value objVal with
  | .ok s => s
  | .error e => ⟨.error, [], none, some ("Solver error: " ++ e.msg)⟩

/-- The constraint loop of `validate_solution` (or_tools_adapter.py lines
771–789): only precedence constraints are checked. -/
def validateLoop (sol : Solution) : List Constraint → Except PyErr Bool
  | [] => .ok true
  | c :: rest =>
    if c.type = "precedence" then
      match c.entities.get? 0, c.entities.get? 1 with
      | some aid, some bid =>
        match get_assignment sol aid "end_time", get_assignment sol bid "start_time" with
        | some ae, some bs =>
          if bs.value < ae.value then .ok false else validateLoop sol rest
        | _, _ => .ok false
      | _, _ => .error .indexError
    else validateLoop sol rest

/-- `validate_solution` (or_tools_adapter.py lines 761–789): `False` unless
the status is OPTIMAL, then re-check each precedence constraint
(`A.end <= B.start`) against the solution's own assignments. -/
def validate_solution (sol : Solution) (entities : List Entity)
    (constraints : List Constraint) : Except PyErr Bool :=
  if sol.status ≠ .optimal then .ok false
  else validateLoop sol constraints

theorem Solution.make_ok {status : SolutionStatus} {assignments : List Assignment}
    {ov : Option Int} {pf : Option String} {s : Solution}
    (h : Solution.make status assignments ov pf = .ok s) :
    s.status = status ∧ s.assignments = assignments ∧
      ((status = .optimal ∨ status = .feasible) → assignments ≠ []) := by
  unfold Solution.make at h
  by_cases hc : (status = .optimal ∨ status = .feasible) ∧ assignments = []
  · rw [if_pos hc] at h
    exact absurd h (by simp)
  · rw [if_neg hc] at h
    obtain rfl : (⟨status, assignments, ov, pf⟩ : Solution) = s := by simpa using h
    exact ⟨rfl, rfl, fun hst hasg => hc ⟨hst, hasg⟩⟩

theorem decode_solution_ok_inv {vars : List String} {status : CpStatus}
    {entities : List Entity} {value : String → Int} {objVal : Option Int} {s : Solution}
    (h : decode_solution vars status entities value objVal = .ok s) :
    (s.status = .optimal ∨ s.status = .feasible) → s.assignments ≠ [] := by
  unfold decode_solution at h
  by_cases hc : statusMap status = .optimal ∨ statusMap status = .feasible
  · rw [if_pos hc] at h
    obtain ⟨h1, h2, h3⟩ := Solution.make_ok h
    intro hs
    rw [h2]
    exact h3 (by rw [← h1]; exact hs)
  · rw [if_neg hc] at h
    obtain ⟨h1, _, _⟩ := Solution.make_ok h
    intro hs
    exact absurd (by rw [← h1]; exact hs) hc

theorem solveBody_ok_inv {entities : List Entity} {constraints : List Constraint}
    {objective : Option Objective} {status : CpStatus} {value : String → Int}
    {objVal : Option Int} {s : Solution}
    (h : solveBody entities constraints objective status value objVal = .ok s) :
    (s.status = .optimal ∨ s.status = .feasible) → s.assignments ≠ [] := by
  unfold solveBody at h
  match hec : encode_constraints (encode_variables entities) constraints with
  | .error e => rw [hec] at h; exact absurd h (by simp)
  | .ok vars2 =>
    rw [hec] at h
    exact decode_solution_ok_inv h

/-- C3: `solve` always hands the caller a `Solution` value: on the normal
path it returns the decoded solution, and every exception raised in the
body is caught and converted into an ERROR-status solution with no
assignments and nonempty diagnostic text. -/
theorem C3_solve_always_returns (entities : List Entity)
    (constraints : List Constraint) (objective : Option Objective)
    (status : CpStatus) (value : String → Int) (objVal : Option Int) :
    (∀ s, solveBody entities constraints objective status value objVal = .ok s →
      solve entities constraints objective status value objVal = s) ∧
    (∀ e, solveBody entities constraints objective status value objVal = .error e →
      (solve entities constraints objective status value objVal).status = .error ∧
      (solve entities constraints objective status value objVal).assignments = [] ∧
      (solve entities constraints objective status value objVal).proof =
        some ("Solver error: " ++ e.msg) ∧
      0 < ("Solver error: " ++ e.msg).length) := by
  constructor
  · intro s hs
    unfold solve
    rw [hs]
  · intro e he
    unfold solve
    rw [he]
    refine ⟨rfl, rfl, rfl, ?_⟩
    rw [String.length_append]
    have h14 : ("Solver error: " : String).length = 14 := rfl
    omega

/-- Witness for C3 on a one-constraint input whose encoding raises. -/
theorem C3_solve_always_returns_witness :
    solveBody [] [⟨0, "bogus", []⟩] none .optimal (fun _ => 0) none =
      .error (.valueError "Unsupported constraint type: bogus") ∧
    (solve [] [⟨0, "bogus", []⟩] none .optimal (fun _ => 0) none).status = .error ∧
    (solve [] [⟨0, "bogus", []⟩] none .optimal (fun _ => 0) none).proof =
      some "Solver error: Unsupported constraint type: bogus" := by
  have hbody : solveBody [] [⟨0, "bogus", []⟩] none .optimal (fun _ => 0) none =
      .error (.valueError "Unsupported constraint type: bogus") := by decide
  have h := (C3_solve_always_returns [] [⟨0, "bogus", []⟩] none .optimal
      (fun _ => 0) none).2 _ hbody
  exact ⟨hbody, h.1, by rw [h.2.2.1]; rfl⟩

/-- C6: the Solution contract rejects OPTIMAL and FEASIBLE with an empty
assignment list at construction (`ValueError`), and `solve` therefore
never returns such a value. -/
theorem C6_optimal_feasible_nonempty :
    (∀ ov pf, Solution.make .optimal [] ov pf =
      .error (.valueError "Status optimal requires non-empty assignments")) ∧
    (∀ ov pf, Solution.make .feasible [] ov pf =
      .error (.valueError "Status feasible requires non-empty assignments")) ∧
    (∀ entities constraints objective status value objVal,
      ((solve entities constraints objective status value objVal).status = .optimal ∨
       (solve entities constraints objective status value objVal).status = .feasible) →
      (solve entities constraints objective status value objVal).assignments ≠ []) := by
  refine ⟨fun ov pf => rfl, fun ov pf => rfl, ?_⟩
  intro entities constraints objective status value objVal hst
  unfold solve at hst ⊢
  match hb : solveBody entities constraints objective status value objVal with
  | .ok s =>
    rw [hb] at hst
    exact solveBody_ok_inv hb hst
  | .error e =>
    rw [hb] at hst
    rcases hst with h | h <;> exact absurd h (by simp)

/-- Witness for C6 on a solvable one-entity input. -/
theorem C6_optimal_feasible_nonempty_witness :
    isOk (Solution.make .optimal [] none none) = false ∧
    (solve [⟨0, "A", none⟩] [] none .optimal (fun _ => 0) none).status = .optimal ∧
    (solve [⟨0, "A", none⟩] [] none .optimal (fun _ => 0) none).assignments ≠ [] := by
  refine ⟨by decide, by decide, ?_⟩
  exact C6_optimal_feasible_nonempty.2.2 [⟨0, "A", none⟩] [] none .optimal
    (fun _ => 0) none (Or.inl (by decide))

/-- A constraint whose encoding cannot raise: choice always encodes;
precedence/mutex need two participants that are among the given entities
(so the variable-key lookups succeed). -/
def encodesCleanly (entities : List Entity) (c : Constraint) : Prop :=
  c.type = "choice" ∨
  ((c.type = "precedence" ∨ c.type = "mutex") ∧
    ∃ a b, c.entities.get? 0 = some a ∧ c.entities.get? 1 = some b ∧
      a ∈ entities.map Entity.id ∧ b ∈ entities.map Entity.id)

theorem mem_encode_variables {entities : List Entity} {eid : Nat}
    (h : eid ∈ entities.map Entity.id) (sfx : String)
    (hs : sfx ∈ (["_start", "_end", "_duration"] : List String)) :
    (toString eid ++ sfx) ∈ encode_variables entities := by
  obtain ⟨e, he, rfl⟩ := List.mem_map.mp h
  unfold encode_variables
  rw [List.mem_flatten]
  refine ⟨[toString e.id ++ "_start", toString e.id ++ "_end",
    toString e.id ++ "_duration"], List.mem_map.mpr ⟨e, he, rfl⟩, ?_⟩
  have hsx : sfx = "_start" ∨ sfx = "_end" ∨ sfx = "_duration" := by simpa using hs
  rcases hsx with rfl | rfl | rfl <;> simp

theorem requireVars_ok {vars : List String} :
    ∀ ks : List String, (∀ k ∈ ks, k ∈ vars) → requireVars vars ks = .ok () := by
  intro ks
  induction ks with
  | nil => intro _; rfl
  | cons k rest ih =>
    intro h
    unfold requireVars
    rw [if_pos (h k (List.mem_cons_self _ _))]
    exact ih (fun x hx => h x (List.mem_cons_of_mem _ hx))

theorem encodeConstraint_ok {entities : List Entity} {vars : List String}
    (hsub : ∀ k ∈ encode_variables entities, k ∈ vars) {c : Constraint}
    (hc : encodesCleanly entities c) :
    ∃ vars2, encodeConstraint vars c = .ok vars2 ∧ ∀ k ∈ vars, k ∈ vars2 := by
  rcases hc with hchoice | ⟨htype, a, b, ha0, hb1, haid, hbid⟩
  · refine ⟨vars ++ c.entities.map (fun eid => toString eid ++ "_selected"), ?_,
      fun k hk => List.mem_append.mpr (Or.inl hk)⟩
    unfold encodeConstraint
    rw [if_neg (by rw [hchoice]; decide), if_neg (by rw [hchoice]; decide),
      if_pos hchoice]
  · have hKa : ∀ sfx ∈ (["_start", "_end", "_duration"] : List String),
        (toString a ++ sfx) ∈ vars :=
      fun sfx hs => hsub _ (mem_encode_variables haid sfx hs)
    have hKb : ∀ sfx ∈ (["_start", "_end", "_duration"] : List String),
        (toString b ++ sfx) ∈ vars :=
      fun sfx hs => hsub _ (mem_encode_variables hbid sfx hs)
    rcases htype with hprec | hmut
    · refine ⟨vars, ?_, fun k hk => hk⟩
      unfold encodeConstraint
      have hreq : requireVars vars [toString a ++ "_end", toString b ++ "_start"] = .ok () := by
        apply requireVars_ok
        intro k hk
        have : k = toString a ++ "_end" ∨ k = toString b ++ "_start" := by simpa using hk
        rcases this with rfl | rfl
        · exact hKa "_end" (by simp)
        · exact hKb "_start" (by simp)
      rw [if_pos hprec]
      simp only [ha0, hb1, hreq]
    · refine ⟨vars, ?_, fun k hk => hk⟩
      unfold encodeConstraint
      have hne : c.type ≠ "precedence" := by rw [hmut]; decide
      have hreq : requireVars vars [toString a ++ "_start", toString a ++ "_end",
          toString a ++ "_duration", toString b ++ "_start", toString b ++ "_end",
          toString b ++ "_duration"] = .ok () := by
        apply requireVars_ok
        intro k hk
        have : k = toString a ++ "_start" ∨ k = toString a ++ "_end" ∨
            k = toString a ++ "_duration" ∨ k = toString b ++ "_start" ∨
            k = toString b ++ "_end" ∨ k = toString b ++ "_duration" := by simpa using hk
        rcases this with rfl | rfl | rfl | rfl | rfl | rfl
        · exact hKa "_start" (by simp)
        · exact hKa "_end" (by simp)
        · exact hKa "_duration" (by simp)
        · exact hKb "_start" (by simp)
        · exact hKb "_end" (by simp)
        · exact hKb "_duration" (by simp)
      rw [if_neg hne, if_pos hmut]
      simp only [ha0, hb1, hreq]

theorem encode_constraints_unsupported {entities : List Entity} :
    ∀ (pre : List Constraint) (vars : List String),
      (∀ k ∈ encode_variables entities, k ∈ vars) →
      (∀ c2 ∈ pre, encodesCleanly entities c2) →
      ∀ (c : Constraint), c.type ≠ "precedence" → c.type ≠ "mutex" →
        c.type ≠ "choice" → ∀ post,
        encode_constraints vars (pre ++ c :: post) =
          .error (.valueError ("Unsupported constraint type: " ++ c.type)) := by
  intro pre
  induction pre with
  | nil =>
    intro vars hsub _ c h1 h2 h3 post
    have hcc : encodeConstraint vars c =
        .error (.valueError ("Unsupported constraint type: " ++ c.type)) := by
      unfold encodeConstraint
      rw [if_neg h1, if_neg h2, if_neg h3]
    simp only [List.nil_append, encode_constraints]
    rw [hcc]
  | cons c2 rest ih =>
    intro vars hsub hpre c h1 h2 h3 post
    obtain ⟨vars2, hok, hmono⟩ := encodeConstraint_ok hsub (hpre c2 (List.mem_cons_self _ _))
    simp only [List.cons_append, encode_constraints]
    rw [hok]
    exact ih vars2 (fun k hk => hmono k (hsub k hk))
      (fun x hx => hpre x (List.mem_cons_of_mem _ hx)) c h1 h2 h3 post

/-- C2 (amended): if the constraint list is `pre ++ [c] ++ post` where
every constraint in `pre` encodes cleanly and `c`'s type is unsupported,
then the encoding fails with `ValueError` naming `c`'s type before any
solving attempt, and `solve` returns an ERROR-status solution whose
diagnostic names the type, with no assignments — for every backend status
and valuation (the backend is never consulted). -/
theorem C2_unsupported_preempts_solving (entities : List Entity)
    (pre post : List Constraint) (c : Constraint)
    (hpre : ∀ c2 ∈ pre, encodesCleanly entities c2)
    (h1 : c.type ≠ "precedence") (h2 : c.type ≠ "mutex") (h3 : c.type ≠ "choice")
    (objective : Option Objective) (status : CpStatus) (value : String → Int)
    (objVal : Option Int) :
    solveBody entities (pre ++ c :: post) objective status value objVal =
      .error (.valueError ("Unsupported constraint type: " ++ c.type)) ∧
    (solve entities (pre ++ c :: post) objective status value objVal).status = .error ∧
    (solve entities (pre ++ c :: post) objective status value objVal).assignments = [] ∧
    (solve entities (pre ++ c :: post) objective status value objVal).proof =
      some ("Solver error: " ++ ("Unsupported constraint type: " ++ c.type)) := by
  have hbody : solveBody entities (pre ++ c :: post) objective status value objVal =
      .error (.valueError ("Unsupported constraint type: " ++ c.type)) := by
    unfold solveBody
    rw [encode_constraints_unsupported pre (encode_variables entities)
      (fun k hk => hk) hpre c h1 h2 h3 post]
  refine ⟨hbody, ?_, ?_, ?_⟩ <;> unfold solve <;> rw [hbody] <;> rfl

/-- Witness for the amended C2: a clean precedence constraint followed by
an unsupported one. -/
theorem C2_unsupported_preempts_solving_witness :
    solveBody [⟨0, "A", none⟩] [⟨1, "precedence", [0, 0]⟩, ⟨2, "weird", []⟩] none
      .optimal (fun _ => 0) none =
      .error (.valueError ("Unsupported constraint type: " ++ "weird")) ∧
    (solve [⟨0, "A", none⟩] [⟨1, "precedence", [0, 0]⟩, ⟨2, "weird", []⟩] none
      .optimal (fun _ => 0) none).status = .error := by
  have h := C2_unsupported_preempts_solving [⟨0, "A", none⟩]
    [⟨1, "precedence", [0, 0]⟩] [] ⟨2, "weird", []⟩
    (fun c2 hc2 => by
      rw [List.mem_singleton] at hc2
      subst hc2
      exact Or.inr ⟨Or.inl rfl, 0, 0, rfl, rfl, by decide, by decide⟩)
    (by decide) (by decide) (by decide) none .optimal (fun _ => 0) none
  exact ⟨h.1, h.2.1⟩

/-- Counterexample to C2 as stated: a precedence constraint over entities
that were not passed to the solver precedes the unsupported constraint, so
encoding fails first with `KeyError` — the failure does not name the
unsupported type and is not the UnsupportedConstraint error. -/
theorem C2_preempted_counterexample :
    solveBody [⟨0, "A", none⟩] [⟨1, "precedence", [5, 6]⟩, ⟨2, "weird", []⟩] none
      .optimal (fun _ => 0) none = .error (.keyError "5_end") ∧
    (Except.error (PyErr.keyError "5_end") : Except PyErr Solution) ≠
      .error (.valueError ("Unsupported constraint type: weird")) ∧
    (solve [⟨0, "A", none⟩] [⟨1, "precedence", [5, 6]⟩, ⟨2, "weird", []⟩] none
      .optimal (fun _ => 0) none).proof = some "Solver error: KeyError: 5_end" := by
  exact ⟨by decide, by decide, by decide⟩

theorem validateLoop_no_precedence (sol : Solution) :
    ∀ cs : List Constraint, (∀ c ∈ cs, c.type ≠ "precedence") →
      validateLoop sol cs = .ok true := by
  intro cs
  induction cs with
  | nil => intro _; rfl
  | cons c rest ih =>
    intro h
    unfold validateLoop
    rw [if_neg (h c (List.mem_cons_self _ _))]
    exact ih (fun x hx => h x (List.mem_cons_of_mem _ hx))

/-- C10: `validate_solution` re-checks only precedence constraints: for an
OPTIMAL solution and a constraint list containing no precedence
constraint, it returns True regardless of whether the assignments satisfy
the mutex or choice constraints. -/
theorem C10_validate_checks_only_precedence (sol : Solution)
    (entities : List Entity) (constraints : List Constraint)
    (hst : sol.status = .optimal)
    (hnp : ∀ c ∈ constraints, c.type ≠ "precedence") :
    validate_solution sol entities constraints = .ok true := by
  unfold validate_solution
  rw [if_neg (fun h => h hst)]
  exact validateLoop_no_precedence sol constraints hnp

/-- Witness for C10: an OPTIMAL solution whose two tasks overlap in time,
violating the mutex constraint — validation still returns True. -/
theorem C10_validate_checks_only_precedence_witness :
    validate_solution
      ⟨.optimal,
        [⟨0, "start_time", 0, some "time_unit"⟩, ⟨0, "end_time", 5, some "time_unit"⟩,
         ⟨1, "start_time", 0, some "time_unit"⟩, ⟨1, "end_time", 3, some "time_unit"⟩],
        none, none⟩
      [⟨0, "A", some 5⟩, ⟨1, "B", some 3⟩] [⟨7, "mutex", [0, 1]⟩] = .ok true :=
  C10_validate_checks_only_precedence _ _ _ rfl (by decide)

end Tessryx